import Mathlib

/-!
Verification of the FlexAudioVisualizer pipeline
(`nodes/audio/flex_audio_visualizer.py`).

The Python source is shallowly embedded here.  Audio samples and all
spectral values are modelled as real numbers; index/time arithmetic
(frame rates, sample rates, frame indices) is modelled with rationals,
which the Python code manipulates exactly in the cases of interest.
Fallible operations (`np.max` of an empty array, `np.fft.rfft` with
`n = 0`, `np.interp` with an empty sample-point array, `np.stack` of an
empty list, division by a zero bar count) are modelled with `Option`:
`none` means the Python code raises an uncaught exception at that point.
-/

namespace FlexAV

/-! ### Python primitives -/

/-- Python `int(q)`: truncation toward zero. -/
def pyTrunc (q : ℚ) : ℤ :=
  if q < 0 then -⌊-q⌋ else ⌊q⌋

/-- Python `int(x)` on a real value: truncation toward zero. -/
noncomputable def pyTruncR (x : ℝ) : ℤ :=
  if x < 0 then -⌊-x⌋ else ⌊x⌋

/-- Resolution of one slice endpoint in Python list slicing `l[a:b]`:
negative indices count from the end, and everything is clamped to
`[0, len l]`. -/
def pyIdx (n : ℕ) (a : ℤ) : ℕ :=
  if a < 0 then (n + a).toNat else min a.toNat n

/-- Python list slicing `l[a:b]` (step 1). -/
def pySlice {α : Type} (l : List α) (a b : ℤ) : List α :=
  (l.take (pyIdx l.length b)).drop (pyIdx l.length a)

/-- Python float `%` (floored modulus), used for `rotation % 360`. -/
noncomputable def pyFMod (a b : ℝ) : ℝ :=
  a - b * ⌊a / b⌋

/-! ### `BaseAudioProcessor` -/

/-- `BaseAudioProcessor.__init__`:
`self.frame_duration = 1 / self.frame_rate if self.frame_rate > 0 else
self.audio_duration / self.num_frames`. -/
def frameDuration (frame_rate audio_duration : ℚ) (num_frames : ℕ) : ℚ :=
  if frame_rate > 0 then 1 / frame_rate else audio_duration / num_frames

/-- `BaseAudioProcessor._get_audio_frame`: slice
`audio[int(i*fd*sr) : int((i+1)*fd*sr)]`. -/
def getAudioFrame (audio : List ℝ) (sr fd : ℚ) (i : ℕ) : List ℝ :=
  pySlice audio (pyTrunc (i * fd * sr)) (pyTrunc ((i + 1) * fd * sr))

/-- `apply_effect`: `num_frames = int(audio_duration * frame_rate)` with
`audio_duration = len(audio) / sample_rate`. -/
def numFrames (audioLen : ℕ) (sr fr : ℚ) : ℕ :=
  (pyTrunc ((audioLen / sr) * fr)).toNat

/-! ### numpy primitives -/

/-- Magnitude of bin `k` of the `n`-point DFT of `x`
(`np.abs(np.fft.rfft(x, n))[k]`); `x` is implicitly zero-padded or
truncated to length `n`. -/
noncomputable def dftMag (x : List ℝ) (n k : ℕ) : ℝ :=
  Complex.abs (∑ j in Finset.range n,
    (x.getD j 0 : ℂ) *
      Complex.exp (-2 * (Real.pi : ℂ) * Complex.I * (j : ℂ) * (k : ℂ) / (n : ℂ)))

/-- `np.abs(np.fft.rfft(x, n))`: the one-sided magnitude spectrum,
bins `0 .. n/2`. -/
noncomputable def rfftAbs (x : List ℝ) (n : ℕ) : List ℝ :=
  (List.range (n / 2 + 1)).map (dftMag x n)

/-- `np.hanning(M)`. -/
noncomputable def hanning (M : ℕ) : List ℝ :=
  if M = 1 then [1]
  else (List.range M).map fun n : ℕ => 1 / 2 - 1 / 2 * Real.cos (2 * Real.pi * (n : ℝ) / ((M : ℝ) - 1))

/-- `np.log1p`. -/
noncomputable def log1p (x : ℝ) : ℝ :=
  Real.log (1 + x)

/-- `np.max`: `none` on an empty array models the `ValueError` numpy
raises for a zero-size reduction. -/
noncomputable def npMax : List ℝ → Option ℝ
  | [] => none
  | a :: as => some (as.foldl max a)

/-- Indices `k` of the bins of `np.fft.rfftfreq(n, d=1/sr)` whose
frequency `k*sr/n` lies in `[minf, maxf]`:
`np.where((freqs >= min_freq) & (freqs <= max_freq))[0]`. -/
def rfftSelect (sr : ℚ) (n : ℕ) (minf maxf : ℚ) : List ℕ :=
  (List.range (n / 2 + 1)).filter fun k =>
    minf ≤ k * sr / n ∧ k * sr / n ≤ maxf

/-- `np.interp(t, np.arange(len fp), fp)` for a rational query point `t`:
clamp at both ends, linear interpolation between consecutive entries
inside.  (Callers guarantee `fp ≠ []`; numpy raises there.) -/
noncomputable def npInterpIdx (fp : List ℝ) (t : ℚ) : ℝ :=
  if t ≤ 0 then fp.getD 0 0
  else if (fp.length : ℚ) - 1 ≤ t then fp.getD (fp.length - 1) 0
  else
    let i : ℕ := (⌊t⌋).toNat
    fp.getD i 0 + ((t : ℝ) - (i : ℝ)) * (fp.getD (i + 1) 0 - fp.getD i 0)

/-- `np.interp(np.linspace(0, len(fp), P, endpoint=False), np.arange(len(fp)), fp)`:
the resampling used inside `get_audio_data` of the circular variants. -/
noncomputable def interpA (fp : List ℝ) (P : ℕ) : List ℝ :=
  (List.range P).map fun j : ℕ => npInterpIdx fp (((j : ℚ) * (fp.length : ℚ)) / P)

/-- `np.interp(np.linspace(0, 1, P), np.linspace(0, 1, len(fp)), fp)`:
the resampling used inside `draw` of the circular variants.  The query
`j/(P-1)` on the grid `i/(len fp - 1)` equals the query
`j*(len fp - 1)/(P-1)` on the integer grid. -/
noncomputable def interpB (fp : List ℝ) (P : ℕ) : List ℝ :=
  (List.range P).map fun j : ℕ =>
    npInterpIdx fp (((j : ℚ) * ((fp.length : ℚ) - 1)) / ((P : ℚ) - 1))

/-! ### Spectral feature extraction (`get_audio_data` of each variant)

Each variant's `get_audio_data` is split into the pure "data" phase
(window → normalized spectrum vector) and the state-update phase
(lazy (re)initialization plus exponential smoothing), exactly following
the phases of the Python code. -/

/-- The shared head of the three frequency-domain variants: zero-pad the
window to `fft_size`, multiply by a Hann window of matching length,
take the one-sided magnitude spectrum, and keep the bins selected by
`rfftSelect`. -/
noncomputable def selectedSpectrum (sr : ℚ) (fft_size : ℕ) (minf maxf : ℚ)
    (frame : List ℝ) : List ℝ :=
  let frame :=
    if frame.length < fft_size then frame ++ List.replicate (fft_size - frame.length) (0 : ℝ)
    else frame
  let frame := List.zipWith (· * ·) frame (hanning frame.length)
  let spectrum := rfftAbs frame fft_size
  (rfftSelect sr fft_size minf maxf).map fun k => spectrum.getD k 0

/-- The `if np.max(spectrum) != 0: spectrum = spectrum / np.max(spectrum)`
normalization step; `none` models the `ValueError` that `np.max` raises
on an empty array. -/
noncomputable def normalizeMax (spectrum : List ℝ) : Option (List ℝ) :=
  match npMax spectrum with
  | none => none
  | some m => some (if m ≠ 0 then spectrum.map (· / m) else spectrum)

/-- `FlexAudioVisualizerBar.get_audio_data`, data phase: empty window →
`np.zeros(num_bars)`; otherwise magnitude spectrum at `n = num_bars*2`
(no Hann window — the Bar variant does not window), `log1p`,
conditional max-normalization, then the first `num_bars` bins.
`none` models the error `np.fft.rfft` raises for `n = 0`. -/
noncomputable def barDataOfFrame (num_bars : ℕ) (frame : List ℝ) : Option (List ℝ) :=
  if frame.length = 0 then some (List.replicate num_bars 0)
  else if num_bars = 0 then none
  else
    match normalizeMax ((rfftAbs frame (num_bars * 2)).map log1p) with
    | none => none
    | some sp => some (sp.take num_bars)

/-- `FlexAudioVisualizerFreqAmplitude.get_audio_data`, data phase. -/
noncomputable def faDataOfFrame (sr : ℚ) (fft_size : ℕ) (minf maxf : ℚ)
    (frame : List ℝ) : Option (List ℝ) :=
  if fft_size = 0 then none
  else normalizeMax ((selectedSpectrum sr fft_size minf maxf frame).map log1p)

/-- `FlexAudioVisualizerCircular.get_audio_data`, data phase: like the
FreqAmplitude variant followed by resampling to `num_points`. -/
noncomputable def circDataOfFrame (sr : ℚ) (fft_size num_points : ℕ) (minf maxf : ℚ)
    (frame : List ℝ) : Option (List ℝ) :=
  if fft_size = 0 then none
  else
    match normalizeMax ((selectedSpectrum sr fft_size minf maxf frame).map log1p) with
    | none => none
    | some sp => some (interpA sp num_points)

open Classical in
/-- `FlexAudioVisualizerCircleDeform.get_audio_data`, data phase: this
variant explicitly checks `len(spectrum) == 0 or np.all(spectrum == 0)`
and substitutes `np.zeros(num_points)`; in that branch `np.interp` is
applied with `xp = arange(num_points)`, which raises when
`num_points = 0`.  Otherwise `log1p`, unconditional division by the
maximum, and resampling to `num_points`. -/
noncomputable def cdDataOfFrame (sr : ℚ) (fft_size num_points : ℕ) (minf maxf : ℚ)
    (frame : List ℝ) : Option (List ℝ) :=
  if fft_size = 0 then none
  else if (selectedSpectrum sr fft_size minf maxf frame).length = 0 ∨
      ∀ x ∈ selectedSpectrum sr fft_size minf maxf frame, x = 0 then
    if num_points = 0 then none
    else some (interpA (List.replicate num_points 0) num_points)
  else
    match npMax ((selectedSpectrum sr fft_size minf maxf frame).map log1p) with
    | none => none
    | some m =>
      some (interpA (((selectedSpectrum sr fft_size minf maxf frame).map log1p).map (· / m))
        num_points)

/-- The elementwise smoothing update
`state = smoothing * state + (1 - smoothing) * data`. -/
def smoothUpdate (α : ℝ) (prev data : List ℝ) : List ℝ :=
  List.zipWith (fun p d => α * p + (1 - α) * d) prev data

/-- Lazy (re)initialization followed by the smoothing update: the Python
code replaces the persistent state by `np.zeros(cnt)` whenever its
length differs from `cnt` (or it is still `None`, which the initial
state `[]` models), then blends in the new data. -/
def stateSmooth (α : ℝ) (cnt : ℕ) (prev data : List ℝ) : List ℝ :=
  smoothUpdate α (if prev.length ≠ cnt then List.replicate cnt 0 else prev) data

/-- `FlexAudioVisualizerBar.get_audio_data`, full: data phase then state
update of `self.bars` (count `num_bars`). -/
noncomputable def barGetAudioData (audio : List ℝ) (sr fd : ℚ) (i : ℕ)
    (num_bars : ℕ) (α : ℝ) (prev : List ℝ) : Option (List ℝ) :=
  (barDataOfFrame num_bars (getAudioFrame audio sr fd i)).map (stateSmooth α num_bars prev)

/-- `FlexAudioVisualizerFreqAmplitude.get_audio_data`, full: the state is
reinitialized whenever its length differs from the new data's length. -/
noncomputable def faGetAudioData (audio : List ℝ) (sr fd : ℚ) (i : ℕ)
    (fft_size : ℕ) (minf maxf : ℚ) (α : ℝ) (prev : List ℝ) : Option (List ℝ) :=
  (faDataOfFrame sr fft_size minf maxf (getAudioFrame audio sr fd i)).map
    fun data => stateSmooth α data.length prev data

/-- `FlexAudioVisualizerCircular.get_audio_data`, full (count `num_points`). -/
noncomputable def circGetAudioData (audio : List ℝ) (sr fd : ℚ) (i : ℕ)
    (fft_size num_points : ℕ) (minf maxf : ℚ) (α : ℝ) (prev : List ℝ) :
    Option (List ℝ) :=
  (circDataOfFrame sr fft_size num_points minf maxf (getAudioFrame audio sr fd i)).map
    (stateSmooth α num_points prev)

/-- `FlexAudioVisualizerCircleDeform.get_audio_data`, full (count `num_points`). -/
noncomputable def cdGetAudioData (audio : List ℝ) (sr fd : ℚ) (i : ℕ)
    (fft_size num_points : ℕ) (minf maxf : ℚ) (α : ℝ) (prev : List ℝ) :
    Option (List ℝ) :=
  (cdDataOfFrame sr fft_size num_points minf maxf (getAudioFrame audio sr fd i)).map
    (stateSmooth α num_points prev)

/-- Scalar trajectory of one state entry under repeated smoothing against
a constant input `c`. -/
def smoothIter (α c x0 : ℝ) : ℕ → ℝ
  | 0 => x0
  | n + 1 => α * smoothIter α c x0 n + (1 - α) * c

/-- Vector trajectory of the persistent state under repeated
`smoothUpdate` against a constant input vector `c`. -/
def smoothIterVec (α : ℝ) (c s0 : List ℝ) : ℕ → List ℝ
  | 0 => s0
  | n + 1 => smoothUpdate α (smoothIterVec α c s0 n) c

/-! ### Drawing (`draw` of each variant)

The draw routines are embedded as the sequence of drawing commands they
hand to the 2-D graphics library (one rectangle or line segment per
state entry), rather than as rasterized pixels. -/

/-- One rectangle of `FlexAudioVisualizerBar.draw`, for bar index `i`:
`x = int(i * (bar_width + separation))`, `bar_h = min_height +
(max_height - min_height) * bar_value`, `y` endpoints depending on
`reflect`, clamped to the screen and swapped if inverted, with
`bar_width = (W - separation * (num_bars - 1)) / num_bars`. -/
noncomputable def barRect (bars : List ℝ)
    (separation max_height min_height position_y : ℝ) (num_bars : ℕ)
    (reflect : Bool) (W H : ℕ) (i : ℕ) : ℤ × ℤ × ℤ × ℤ :=
  let bar_width : ℝ := ((W : ℝ) - separation * ((num_bars : ℝ) - 1)) / (num_bars : ℝ)
  let baseline_y : ℤ := pyTruncR ((H : ℝ) * position_y)
  let bar_value := bars.getD i 0
  let x := pyTruncR ((i : ℝ) * (bar_width + separation))
  let bar_h := min_height + (max_height - min_height) * bar_value
  let y_start0 := pyTruncR ((baseline_y : ℝ) - bar_h)
  let y_end0 := if reflect then pyTruncR ((baseline_y : ℝ) + bar_h) else baseline_y
  let y_start1 := max (min y_start0 ((H : ℤ) - 1)) 0
  let y_end1 := max (min y_end0 ((H : ℤ) - 1)) 0
  let ys := if y_start1 > y_end1 then y_end1 else y_start1
  let ye := if y_start1 > y_end1 then y_start1 else y_end1
  (x, ys, ye, pyTruncR ((x : ℝ) + bar_width))

/-- `FlexAudioVisualizerBar.draw`: the list of rectangles drawn, one per
entry of `self.bars` — the loop is `for i, bar_value in enumerate(self.bars)`
and performs no resampling.  `none` models the `ZeroDivisionError` of
`bar_width = total_bar_width / num_bars` at `num_bars = 0`. -/
noncomputable def barDrawRects (bars : List ℝ)
    (separation max_height min_height position_y : ℝ) (num_bars : ℕ)
    (reflect : Bool) (W H : ℕ) : Option (List (ℤ × ℤ × ℤ × ℤ)) :=
  if num_bars = 0 then none
  else some ((List.range bars.length).map
    (barRect bars separation max_height min_height position_y num_bars reflect W H))

/-- Lines 566–567 / 696–697: `if len(self.spectrum) != num_points:
self.spectrum = np.interp(np.linspace(0, 1, num_points),
np.linspace(0, 1, len(self.spectrum)), self.spectrum)`.  `none` models
the error `np.interp` raises on an empty sample-point array. -/
noncomputable def drawResolveSpectrum (spectrum : List ℝ) (num_points : ℕ) :
    Option (List ℝ) :=
  if spectrum.length ≠ num_points then
    if spectrum.length = 0 then none else some (interpB spectrum num_points)
  else some spectrum

/-- The angles `np.linspace(0, 2*np.pi, num_points, endpoint=False) +
np.deg2rad(rotation % 360)` of the circular variants' `draw`. -/
noncomputable def circAngles (num_points : ℕ) (rot : ℝ) : List ℝ :=
  (List.range num_points).map fun j : ℕ =>
    2 * Real.pi * (j : ℝ) / (num_points : ℝ) + pyFMod rot 360 * Real.pi / 180

/-- One radial line segment of `FlexAudioVisualizerCircular.draw` for an
`(angle, amplitude)` pair: from the circle of radius `radius` outward to
`radius + amplitude * radius`. -/
noncomputable def circSeg (radius : ℝ) (W H : ℕ) (p : ℝ × ℝ) :
    (ℤ × ℤ) × (ℤ × ℤ) :=
  ((pyTruncR ((W : ℝ) / 2 + radius * Real.cos p.1),
    pyTruncR ((H : ℝ) / 2 + radius * Real.sin p.1)),
   (pyTruncR ((W : ℝ) / 2 + (radius + p.2 * radius) * Real.cos p.1),
    pyTruncR ((H : ℝ) / 2 + (radius + p.2 * radius) * Real.sin p.1)))

/-- `FlexAudioVisualizerCircular.draw`: the list of line segments drawn, one
per `(angle, amplitude)` pair of `zip(angles, self.spectrum)` after the
state has been resolved to `num_points` entries. -/
noncomputable def circDrawLines (spectrum : List ℝ) (num_points : ℕ)
    (radius rot : ℝ) (W H : ℕ) : Option (List ((ℤ × ℤ) × (ℤ × ℤ))) :=
  match drawResolveSpectrum spectrum num_points with
  | none => none
  | some sp => some ((List.zip (circAngles num_points rot) sp).map (circSeg radius W H))

/-- One polyline point of `FlexAudioVisualizerCircleDeform.draw`: per-angle
radius `base_radius + spectrum_value * amplitude_scale`. -/
noncomputable def cdPoint (base_radius amplitude_scale : ℝ) (W H : ℕ)
    (p : ℝ × ℝ) : ℤ × ℤ :=
  (pyTruncR ((W : ℝ) / 2 + (base_radius + p.2 * amplitude_scale) * Real.cos p.1),
   pyTruncR ((H : ℝ) / 2 + (base_radius + p.2 * amplitude_scale) * Real.sin p.1))

/-- `FlexAudioVisualizerCircleDeform.draw`: the list of polyline points,
one per state entry after the state has been resolved to `num_points`. -/
noncomputable def cdDrawPoints (spectrum : List ℝ) (num_points : ℕ)
    (base_radius amplitude_scale rot : ℝ) (W H : ℕ) : Option (List (ℤ × ℤ)) :=
  match drawResolveSpectrum spectrum num_points with
  | none => none
  | some sp =>
    some ((List.zip (circAngles num_points rot) sp).map
      (cdPoint base_radius amplitude_scale W H))

/-! ### Parameter modulation and the frame loop (`FlexAudioVisualizerBase`) -/

/-- `FlexAudioVisualizerBase.modulate_param`. -/
noncomputable def modulate_param (param_name : String) (param_value feature_value strength : ℝ)
    (mode : String) : ℝ :=
  if mode = "relative" then param_value * (1 + (feature_value - 1 / 2) * strength)
  else param_value * feature_value * strength

/-- The kwargs-modulation block of `apply_effect`: for each name in
`get_modifiable_params()`, if it is present in `kwargs` and equals
`feature_param`, overwrite its entry with the modulated value.  Kwargs
are modelled as a partial map from parameter names to values. -/
noncomputable def updateKwargs (mods : List String) (feature_param : String) (fv strength : ℝ)
    (mode : String) (kw : String → Option ℝ) : String → Option ℝ :=
  fun name =>
    if feature_param ∈ mods ∧ name = feature_param then
      (kw name).map fun v => modulate_param name v fv strength mode
    else kw name

/-- One frame's kwargs transition: the kwargs are modulated only when an
external feature source is present. -/
noncomputable def nextKwargs (optFeature : Option (ℕ → ℝ)) (mods : List String)
    (feature_param : String) (strength : ℝ) (mode : String) (n : ℕ)
    (kw : String → Option ℝ) : String → Option ℝ :=
  match optFeature with
  | none => kw
  | some f => updateKwargs mods feature_param (f n) strength mode kw

/-- Observable trace of the frame loop: the images appended to `result`,
the frame indices at which `draw` was invoked, and the number of
progress ticks reported. -/
structure DriverTrace (Img : Type) where
  images : List Img
  renders : List ℕ
  ticks : ℕ

/-- The frame loop of `apply_effect`, run for the first `n` frames:
each iteration calls `get_audio_data` (whose failure aborts the run),
modulates `kwargs` when an external feature is present, renders one
image, and reports one progress tick. -/
noncomputable def driverRun {σ Img : Type} (gad : σ → ℕ → (String → Option ℝ) → Option σ)
    (draw : σ → (String → Option ℝ) → Img) (mods : List String)
    (feature_param : String) (optFeature : Option (ℕ → ℝ)) (strength : ℝ)
    (mode : String) :
    ℕ → σ → (String → Option ℝ) → Option (σ × (String → Option ℝ) × DriverTrace Img)
  | 0, s, kw => some (s, kw, ⟨[], [], 0⟩)
  | n + 1, s, kw =>
    match driverRun gad draw mods feature_param optFeature strength mode n s kw with
    | none => none
    | some (s1, kw1, tr) =>
      match gad s1 n kw1 with
      | none => none
      | some s2 =>
        let kw2 := nextKwargs optFeature mods feature_param strength mode n kw1
        some (s2, kw2,
          ⟨tr.images ++ [draw s2 kw2], tr.renders ++ [n], tr.ticks + 1⟩)

/-- `FlexAudioVisualizerBase.apply_effect`: compute
`num_frames = int(audio_duration * frame_rate)`, run the frame loop, and
stack the collected images; `none` for the `ValueError` that `np.stack`
raises on an empty list. -/
noncomputable def applyEffect {σ Img : Type} (gad : σ → ℕ → (String → Option ℝ) → Option σ)
    (draw : σ → (String → Option ℝ) → Img) (mods : List String)
    (feature_param : String) (optFeature : Option (ℕ → ℝ)) (strength : ℝ)
    (mode : String) (audioLen : ℕ) (sr fr : ℚ) (s0 : σ)
    (kw0 : String → Option ℝ) : Option (List Img) :=
  match driverRun gad draw mods feature_param optFeature strength mode
      (numFrames audioLen sr fr) s0 kw0 with
  | none => none
  | some (_, _, tr) => if tr.images.isEmpty then none else some tr.images

/-! ### Helper lemmas: Python primitives -/

theorem pyTrunc_of_nonneg {q : ℚ} (h : 0 ≤ q) : pyTrunc q = ⌊q⌋ :=
  if_neg (not_lt.mpr h)

theorem pyIdx_of_nonneg {n : ℕ} {a : ℤ} (h : 0 ≤ a) : pyIdx n a = min a.toNat n :=
  if_neg (not_lt.mpr h)

theorem take_min_length {α : Type} (l : List α) (n : ℕ) :
    l.take (min n l.length) = l.take n := by
  rcases le_total n l.length with h | h
  · rw [min_eq_left h]
  · rw [min_eq_right h, List.take_length, List.take_of_length_le h]

theorem pySlice_of_nonneg {α : Type} (l : List α) {a b : ℤ} (ha : 0 ≤ a) (hb : 0 ≤ b) :
    pySlice l a b = (l.take b.toNat).drop a.toNat := by
  unfold pySlice
  rw [pyIdx_of_nonneg ha, pyIdx_of_nonneg hb, take_min_length]
  rcases le_total a.toNat l.length with h | h
  · rw [min_eq_left h]
  · rw [min_eq_right h, List.drop_eq_nil_of_le, List.drop_eq_nil_of_le]
    · exact le_trans (by rw [List.length_take]; exact min_le_right _ _) h
    · rw [List.length_take]; exact min_le_right _ _

theorem frameDuration_nonneg {fr dur : ℚ} (hdur : 0 ≤ dur) (N : ℕ) :
    0 ≤ frameDuration fr dur N := by
  unfold frameDuration
  split
  · positivity
  · positivity

/-! ### C5, C6, C9 -/

/-- C5: `modulate_param` returns `base * (1 + (feature - 0.5) * strength)` in
relative mode and `base * feature * strength` in absolute mode; hence in
relative mode a feature of exactly `0.5` returns the base unchanged for any
strength, and in absolute mode a feature of `0` returns `0`. -/
theorem c5_theorem (name : String) (b f s : ℝ) :
    modulate_param name b f s "relative" = b * (1 + (f - 1 / 2) * s) ∧
    modulate_param name b f s "absolute" = b * f * s ∧
    modulate_param name b (1 / 2) s "relative" = b ∧
    modulate_param name b 0 s "absolute" = 0 := by
  have hrel : ("relative" : String) = "relative" := rfl
  have habs : ("absolute" : String) ≠ "relative" := by decide
  refine ⟨?_, ?_, ?_, ?_⟩
  · rw [modulate_param, if_pos hrel]
  · rw [modulate_param, if_neg habs]
  · rw [modulate_param, if_pos hrel]; ring
  · rw [modulate_param, if_neg habs]; ring

/-- C6: `_get_audio_frame i` returns the sample slice
`[⌊i*fd*sr⌋, ⌊(i+1)*fd*sr⌋)` of the audio, where the frame duration is
`1/frame_rate` when `frame_rate > 0` and `total_duration/num_frames`
otherwise; for indices past the end of the audio nothing is raised and the
slice is empty (or truncated, by the clamping of `List.take`/`List.drop`). -/
theorem c6_theorem (audio : List ℝ) (sr fr : ℚ) (N i : ℕ) (hsr : 0 ≤ sr) :
    getAudioFrame audio sr (frameDuration fr ((audio.length : ℚ) / sr) N) i =
      (audio.take
        (⌊((i : ℚ) + 1) * frameDuration fr ((audio.length : ℚ) / sr) N * sr⌋).toNat).drop
        (⌊(i : ℚ) * frameDuration fr ((audio.length : ℚ) / sr) N * sr⌋).toNat ∧
    (audio.length ≤ (⌊(i : ℚ) * frameDuration fr ((audio.length : ℚ) / sr) N * sr⌋).toNat →
      getAudioFrame audio sr (frameDuration fr ((audio.length : ℚ) / sr) N) i = []) := by
  set fd := frameDuration fr ((audio.length : ℚ) / sr) N with hfd
  have hfd0 : 0 ≤ fd := frameDuration_nonneg (by positivity) N
  have h1 : 0 ≤ (i : ℚ) * fd * sr := by positivity
  have h2 : 0 ≤ ((i : ℚ) + 1) * fd * sr := by positivity
  have hmain : getAudioFrame audio sr fd i =
      (audio.take (⌊((i : ℚ) + 1) * fd * sr⌋).toNat).drop (⌊(i : ℚ) * fd * sr⌋).toNat := by
    unfold getAudioFrame
    rw [pyTrunc_of_nonneg h1, pyTrunc_of_nonneg h2,
      pySlice_of_nonneg audio (Int.floor_nonneg.mpr h1) (Int.floor_nonneg.mpr h2)]
  refine ⟨hmain, fun hpast => ?_⟩
  rw [hmain, List.drop_eq_nil_of_le]
  exact le_trans (by rw [List.length_take]; exact min_le_right _ _) hpast

/-- Witness for C6 at a concrete input. -/
theorem c6_witness :
    (0 : ℚ) ≤ 2 ∧
    (getAudioFrame [(0 : ℝ), 0, 0] 2 (frameDuration 30 (([(0 : ℝ), 0, 0].length : ℚ) / 2) 3) 1 =
      ([(0 : ℝ), 0, 0].take
        (⌊((1 : ℕ) + 1 : ℚ) * frameDuration 30 (([(0 : ℝ), 0, 0].length : ℚ) / 2) 3 * 2⌋).toNat).drop
        (⌊((1 : ℕ) : ℚ) * frameDuration 30 (([(0 : ℝ), 0, 0].length : ℚ) / 2) 3 * 2⌋).toNat) :=
  ⟨by decide, (c6_theorem [0, 0, 0] 2 30 3 1 (by decide)).1⟩

/-- C9: when `num_frames = int(audio_duration * frame_rate)` is `0`, the
frame loop body never runs (the trace is empty) and `apply_effect` does not
return an image sequence: stacking the empty result list raises
(modelled as `none`). -/
theorem c9_theorem {σ Img : Type} (gad : σ → ℕ → (String → Option ℝ) → Option σ)
    (draw : σ → (String → Option ℝ) → Img) (mods : List String)
    (feature_param : String) (optFeature : Option (ℕ → ℝ)) (strength : ℝ)
    (mode : String) (audioLen : ℕ) (sr fr : ℚ) (s0 : σ) (kw0 : String → Option ℝ)
    (hN : numFrames audioLen sr fr = 0) :
    driverRun gad draw mods feature_param optFeature strength mode
      (numFrames audioLen sr fr) s0 kw0 = some (s0, kw0, ⟨[], [], 0⟩) ∧
    applyEffect gad draw mods feature_param optFeature strength mode
      audioLen sr fr s0 kw0 = none := by
  constructor
  · rw [hN]; rfl
  · unfold applyEffect
    rw [hN]
    rfl

/-- Witness for C9: one-sample audio at 10 Hz with frame rate 5 gives
`num_frames = int(0.5) = 0`. -/
theorem c9_witness :
    driverRun (fun (s : Unit) (_ : ℕ) (_ : String → Option ℝ) => some s)
      (fun (_ : Unit) (_ : String → Option ℝ) => ()) [] "p" none 0 "relative"
      (numFrames 1 10 5) () (fun _ => none) = some ((), fun _ => none, ⟨[], [], 0⟩) ∧
    applyEffect (fun (s : Unit) (_ : ℕ) (_ : String → Option ℝ) => some s)
      (fun (_ : Unit) (_ : String → Option ℝ) => ()) [] "p" none 0 "relative"
      1 10 5 () (fun _ => none) = none :=
  c9_theorem _ _ _ _ _ _ _ 1 10 5 () _ (by
    have h : ((1 : ℕ) : ℚ) / 10 * 5 = 1 / 2 := by norm_num
    unfold numFrames pyTrunc
    rw [h, if_neg (by norm_num : ¬((1 : ℚ) / 2 < 0))]
    norm_num)

/-! ### Driver lemmas and C4, C8 -/

theorem driverRun_total {σ Img : Type} (gad : σ → ℕ → (String → Option ℝ) → Option σ)
    (draw : σ → (String → Option ℝ) → Img) (mods : List String)
    (feature_param : String) (optFeature : Option (ℕ → ℝ)) (strength : ℝ)
    (mode : String) (hgad : ∀ s i kw, (gad s i kw).isSome) :
    ∀ (n : ℕ) (s0 : σ) (kw0 : String → Option ℝ),
      ∃ (s : σ) (kw : String → Option ℝ) (tr : DriverTrace Img),
        driverRun gad draw mods feature_param optFeature strength mode n s0 kw0 =
          some (s, kw, tr) ∧
        tr.images.length = n ∧ tr.renders = List.range n ∧ tr.ticks = n ∧
        (∀ img ∈ tr.images, ∃ s' kw', img = draw s' kw') := by
  intro n
  induction n with
  | zero => exact fun s0 kw0 => ⟨s0, kw0, ⟨[], [], 0⟩, rfl, rfl, rfl, rfl, by simp⟩
  | succ n ih =>
    intro s0 kw0
    obtain ⟨s1, kw1, tr, hrun, hlen, hrend, hticks, himg⟩ := ih s0 kw0
    obtain ⟨s2, hs2⟩ := Option.isSome_iff_exists.mp (hgad s1 n kw1)
    refine ⟨s2, nextKwargs optFeature mods feature_param strength mode n kw1,
      ⟨tr.images ++ [draw s2 (nextKwargs optFeature mods feature_param strength mode n kw1)],
       tr.renders ++ [n], tr.ticks + 1⟩, ?_, ?_, ?_, ?_, ?_⟩
    · simp only [driverRun, hrun, hs2]
    · simp [hlen]
    · rw [hrend]
      exact (List.range_succ n).symm
    · simp [hticks]
    · intro img hmem
      rcases List.mem_append.mp hmem with h | h
      · exact himg img h
      · rcases List.mem_singleton.mp h with rfl
        exact ⟨_, _, rfl⟩

/-- C4 (amended to `num_frames ≥ 1`, with no per-frame extraction failure):
`apply_effect` runs the frame loop exactly `num_frames =
int(audio_duration * frame_rate)` times, invokes `draw` exactly once per
iteration and only at frame indices `< num_frames`, reports exactly one
progress tick per iteration, and returns the collected images as one block
of `num_frames` images, each of shape `(height, width, 3)`. -/
theorem c4_theorem {σ Img : Type} (gad : σ → ℕ → (String → Option ℝ) → Option σ)
    (draw : σ → (String → Option ℝ) → Img) (shape : Img → ℕ × ℕ × ℕ) (H W : ℕ)
    (mods : List String) (feature_param : String) (optFeature : Option (ℕ → ℝ))
    (strength : ℝ) (mode : String) (audioLen : ℕ) (sr fr : ℚ) (s0 : σ)
    (kw0 : String → Option ℝ)
    (hN : 1 ≤ numFrames audioLen sr fr)
    (hgad : ∀ s i kw, (gad s i kw).isSome)
    (hshape : ∀ s kw, shape (draw s kw) = (H, W, 3)) :
    ∃ imgs, applyEffect gad draw mods feature_param optFeature strength mode
        audioLen sr fr s0 kw0 = some imgs ∧
      imgs.length = numFrames audioLen sr fr ∧
      (∀ img ∈ imgs, shape img = (H, W, 3)) ∧
      ∃ (s : σ) (kw : String → Option ℝ) (tr : DriverTrace Img),
        driverRun gad draw mods feature_param optFeature strength mode
          (numFrames audioLen sr fr) s0 kw0 = some (s, kw, tr) ∧
        tr.images = imgs ∧ tr.renders = List.range (numFrames audioLen sr fr) ∧
        (∀ j ∈ tr.renders, j < numFrames audioLen sr fr) ∧
        tr.ticks = numFrames audioLen sr fr := by
  obtain ⟨s, kw, tr, hrun, hlen, hrend, hticks, himg⟩ :=
    driverRun_total gad draw mods feature_param optFeature strength mode hgad
      (numFrames audioLen sr fr) s0 kw0
  have hne : tr.images.isEmpty = false := by
    cases h : tr.images with
    | nil => rw [h] at hlen; simp at hlen; omega
    | cons a t => rfl
  refine ⟨tr.images, ?_, hlen, ?_, s, kw, tr, hrun, rfl, hrend, ?_, hticks⟩
  · unfold applyEffect
    rw [hrun]
    show (if tr.images.isEmpty = true then none else some tr.images) = some tr.images
    rw [hne]
    rfl
  · intro img hmem
    obtain ⟨s', kw', rfl⟩ := himg img hmem
    exact hshape s' kw'
  · intro j hj
    rw [hrend] at hj
    exact List.mem_range.mp hj

/-- Witness for C4 at a concrete input (`num_frames = 2`). -/
theorem c4_witness :
    1 ≤ numFrames 1 1 2 ∧
    ∃ imgs, applyEffect (fun (s : Unit) (_ : ℕ) (_ : String → Option ℝ) => some s)
        (fun (_ : Unit) (_ : String → Option ℝ) => ((6, 8, 3) : ℕ × ℕ × ℕ))
        [] "p" none 0 "relative" 1 1 2 () (fun _ => none) = some imgs ∧
      imgs.length = numFrames 1 1 2 ∧
      (∀ img ∈ imgs, (id img : ℕ × ℕ × ℕ) = (6, 8, 3)) := by
  have hN : 1 ≤ numFrames 1 1 2 := by
    have h : ((1 : ℕ) : ℚ) / 1 * 2 = 2 := by norm_num
    unfold numFrames pyTrunc
    rw [h, if_neg (by norm_num : ¬((2 : ℚ) < 0))]
    norm_num
  obtain ⟨imgs, h1, h2, h3, _⟩ :=
    c4_theorem (fun (s : Unit) (_ : ℕ) (_ : String → Option ℝ) => some s)
      (fun (_ : Unit) (_ : String → Option ℝ) => ((6, 8, 3) : ℕ × ℕ × ℕ))
      id 6 8 [] "p" none 0 "relative" 1 1 2 () (fun _ => none)
      hN (fun _ _ _ => rfl) (fun _ _ => rfl)
  exact ⟨hN, imgs, h1, h2, h3⟩

/-- Counterexample to C4 as stated: with one sample at 10 Hz and frame rate 5,
`num_frames = int(0.5) = 0` and `apply_effect` does not return an image
block at all (stacking the empty list raises, modelled as `none`). -/
theorem c4_counterexample :
    applyEffect (fun (s : Unit) (_ : ℕ) (_ : String → Option ℝ) => some s)
      (fun (_ : Unit) (_ : String → Option ℝ) => ((6, 8, 3) : ℕ × ℕ × ℕ))
      [] "p" none 0 "relative" 1 10 5 () (fun _ => none) = none := by
  have hN : numFrames 1 10 5 = 0 := by
    have h : ((1 : ℕ) : ℚ) / 10 * 5 = 1 / 2 := by norm_num
    unfold numFrames pyTrunc
    rw [h, if_neg (by norm_num : ¬((1 : ℚ) / 2 < 0))]
    norm_num
  unfold applyEffect
  rw [hN]
  rfl

/-- The kwargs entry of the modulated parameter after the update step. -/
theorem updateKwargs_self (mods : List String) (feature_param : String)
    (fv strength : ℝ) (mode : String) (kw : String → Option ℝ)
    (hmem : feature_param ∈ mods) :
    updateKwargs mods feature_param fv strength mode kw feature_param =
      (kw feature_param).map fun v => modulate_param feature_param v fv strength mode := by
  unfold updateKwargs
  rw [if_pos ⟨hmem, rfl⟩]

/-- C8: with an external feature source, the modulated parameter's kwargs
entry is overwritten each frame, so the base value used at frame `i+1` is the
already-modulated value from frame `i`; in relative mode this compounds to
`p0 * ∏ i < n, (1 + (f i - 0.5) * strength)` after `n` frames. -/
theorem c8_theorem {σ Img : Type} (gad : σ → ℕ → (String → Option ℝ) → Option σ)
    (draw : σ → (String → Option ℝ) → Img) (mods : List String)
    (feature_param : String) (f : ℕ → ℝ) (strength : ℝ) (mode : String)
    (s0 : σ) (kw0 : String → Option ℝ) (p0 : ℝ)
    (hgad : ∀ s i kw, (gad s i kw).isSome)
    (hmem : feature_param ∈ mods)
    (hkw0 : kw0 feature_param = some p0) :
    (∀ n s1 kw1 tr1 s2 kw2 tr2,
      driverRun gad draw mods feature_param (some f) strength mode n s0 kw0 =
        some (s1, kw1, tr1) →
      driverRun gad draw mods feature_param (some f) strength mode (n + 1) s0 kw0 =
        some (s2, kw2, tr2) →
      kw2 feature_param =
        (kw1 feature_param).map fun v => modulate_param feature_param v (f n) strength mode) ∧
    (mode = "relative" →
      ∀ n, ∃ (s : σ) (kw : String → Option ℝ) (tr : DriverTrace Img),
        driverRun gad draw mods feature_param (some f) strength mode n s0 kw0 =
          some (s, kw, tr) ∧
        kw feature_param =
          some (p0 * ∏ i in Finset.range n, (1 + (f i - 1 / 2) * strength))) := by
  constructor
  · intro n s1 kw1 tr1 s2 kw2 tr2 h1 h2
    obtain ⟨s2', hs2⟩ := Option.isSome_iff_exists.mp (hgad s1 n kw1)
    simp only [driverRun, h1, hs2] at h2
    have h3 := Option.some.inj h2
    have hkw : nextKwargs (some f) mods feature_param strength mode n kw1 = kw2 :=
      congrArg (fun p => p.2.1) h3
    rw [← hkw]
    exact updateKwargs_self mods feature_param (f n) strength mode kw1 hmem
  · intro hmode n
    induction n with
    | zero =>
      refine ⟨s0, kw0, ⟨[], [], 0⟩, rfl, ?_⟩
      rw [hkw0, Finset.prod_range_zero, mul_one]
    | succ n ih =>
      obtain ⟨s, kw, tr, hrun, hval⟩ := ih
      obtain ⟨s2, hs2⟩ := Option.isSome_iff_exists.mp (hgad s n kw)
      refine ⟨s2, nextKwargs (some f) mods feature_param strength mode n kw,
        ⟨tr.images ++ [draw s2 (nextKwargs (some f) mods feature_param strength mode n kw)],
         tr.renders ++ [n], tr.ticks + 1⟩, ?_, ?_⟩
      · simp only [driverRun, hrun, hs2]
      · show updateKwargs mods feature_param (f n) strength mode kw feature_param = _
        rw [updateKwargs_self mods feature_param (f n) strength mode kw hmem, hval,
          Option.map_some', modulate_param, if_pos hmode, Finset.prod_range_succ]
        rw [mul_assoc]

/-- Witness for C8: two frames at constant feature 1 and strength 1 in
relative mode turn an initial parameter value `1` into `1 * (3/2)^2`. -/
theorem c8_witness :
    ∃ (s : Unit) (kw : String → Option ℝ) (tr : DriverTrace Unit),
      driverRun (fun (s : Unit) (_ : ℕ) (_ : String → Option ℝ) => some s)
        (fun (_ : Unit) (_ : String → Option ℝ) => ()) ["p"] "p"
        (some fun _ => 1) 1 "relative" 2 ()
        (fun name => if name = "p" then some 1 else none) = some (s, kw, tr) ∧
      kw "p" = some (1 * ∏ i in Finset.range 2, (1 + ((1 : ℝ) - 1 / 2) * 1)) :=
  (c8_theorem (fun (s : Unit) (_ : ℕ) (_ : String → Option ℝ) => some s)
    (fun (_ : Unit) (_ : String → Option ℝ) => ()) ["p"] "p" (fun _ => 1) 1
    "relative" () (fun name => if name = "p" then some 1 else none) 1
    (fun _ _ _ => rfl) (by simp)
    (if_pos (rfl : ("p" : String) = "p"))).2 rfl 2

/-! ### Smoothing lemmas and C7 -/

theorem getD_zipWith (f : ℝ → ℝ → ℝ) :
    ∀ (a b : List ℝ) (k : ℕ), k < a.length → k < b.length →
      (List.zipWith f a b).getD k 0 = f (a.getD k 0) (b.getD k 0) := by
  intro a
  induction a with
  | nil => intro b k hk; simp at hk
  | cons x xs ih =>
    intro b k hka hkb
    cases b with
    | nil => simp at hkb
    | cons y ys =>
      cases k with
      | zero => rfl
      | succ k =>
        simp only [List.zipWith_cons_cons, List.getD_cons_succ]
        exact ih ys k (by simpa using hka) (by simpa using hkb)

theorem smoothUpdate_length (α : ℝ) (prev data : List ℝ) :
    (smoothUpdate α prev data).length = min prev.length data.length := by
  simp [smoothUpdate]

theorem smoothUpdate_zero (prev data : List ℝ) (hlen : prev.length = data.length) :
    smoothUpdate 0 prev data = data := by
  unfold smoothUpdate
  induction prev generalizing data with
  | nil => cases data with
    | nil => rfl
    | cons y ys => simp at hlen
  | cons x xs ih =>
    cases data with
    | nil => simp at hlen
    | cons y ys =>
      simp only [List.zipWith_cons_cons]
      rw [ih ys (by simpa using hlen)]
      norm_num

theorem smoothUpdate_one (prev data : List ℝ) (hlen : prev.length = data.length) :
    smoothUpdate 1 prev data = prev := by
  unfold smoothUpdate
  induction prev generalizing data with
  | nil => rfl
  | cons x xs ih =>
    cases data with
    | nil => simp at hlen
    | cons y ys =>
      simp only [List.zipWith_cons_cons]
      rw [ih ys (by simpa using hlen)]
      norm_num

theorem smoothIterVec_length (α : ℝ) (c s0 : List ℝ) (hlen : s0.length = c.length) :
    ∀ n, (smoothIterVec α c s0 n).length = c.length := by
  intro n
  induction n with
  | zero => exact hlen
  | succ n ih =>
    show (smoothUpdate α (smoothIterVec α c s0 n) c).length = c.length
    rw [smoothUpdate_length, ih, min_self]

theorem smoothIterVec_getD (α : ℝ) (c s0 : List ℝ) (hlen : s0.length = c.length)
    (k : ℕ) (hk : k < c.length) :
    ∀ n, (smoothIterVec α c s0 n).getD k 0 = smoothIter α (c.getD k 0) (s0.getD k 0) n := by
  intro n
  induction n with
  | zero => rfl
  | succ n ih =>
    show (smoothUpdate α (smoothIterVec α c s0 n) c).getD k 0 = _
    unfold smoothUpdate
    rw [getD_zipWith _ _ _ k (by rw [smoothIterVec_length α c s0 hlen n]; exact hk) hk, ih]
    rfl

theorem smoothIter_sub (α c x0 : ℝ) (n : ℕ) :
    smoothIter α c x0 (n + 1) - c = α * (smoothIter α c x0 n - c) := by
  show α * smoothIter α c x0 n + (1 - α) * c - c = _
  ring

theorem smoothIter_abs (α c x0 : ℝ) (hα : 0 ≤ α) (n : ℕ) :
    |smoothIter α c x0 (n + 1) - c| = α * |smoothIter α c x0 n - c| := by
  rw [smoothIter_sub, abs_mul, abs_of_nonneg hα]

theorem smoothIter_dist (α c x0 : ℝ) (hα : 0 ≤ α) :
    ∀ n, |smoothIter α c x0 n - c| = α ^ n * |x0 - c| := by
  intro n
  induction n with
  | zero => simp [smoothIter]
  | succ n ih => rw [smoothIter_abs α c x0 hα, ih, pow_succ]; ring

theorem smoothIter_le_of_le (α c x0 : ℝ) (hα0 : 0 ≤ α) (hα1 : α ≤ 1) (hx : x0 ≤ c) :
    ∀ n, smoothIter α c x0 n ≤ c := by
  intro n
  induction n with
  | zero => exact hx
  | succ n ih =>
    show α * smoothIter α c x0 n + (1 - α) * c ≤ c
    nlinarith

theorem smoothIter_mono_of_le (α c x0 : ℝ) (hα0 : 0 ≤ α) (hα1 : α ≤ 1) (hx : x0 ≤ c)
    (n : ℕ) : smoothIter α c x0 n ≤ smoothIter α c x0 (n + 1) := by
  have h := smoothIter_le_of_le α c x0 hα0 hα1 hx n
  show _ ≤ α * smoothIter α c x0 n + (1 - α) * c
  nlinarith

theorem smoothIter_ge_of_ge (α c x0 : ℝ) (hα0 : 0 ≤ α) (hα1 : α ≤ 1) (hx : c ≤ x0) :
    ∀ n, c ≤ smoothIter α c x0 n := by
  intro n
  induction n with
  | zero => exact hx
  | succ n ih =>
    show c ≤ α * smoothIter α c x0 n + (1 - α) * c
    nlinarith

theorem smoothIter_antitone_of_ge (α c x0 : ℝ) (hα0 : 0 ≤ α) (hα1 : α ≤ 1) (hx : c ≤ x0)
    (n : ℕ) : smoothIter α c x0 (n + 1) ≤ smoothIter α c x0 n := by
  have h := smoothIter_ge_of_ge α c x0 hα0 hα1 hx n
  show α * smoothIter α c x0 n + (1 - α) * c ≤ _
  nlinarith

theorem smoothIter_conv (α c x0 : ℝ) (hα0 : 0 < α) (hα1 : α < 1) (ε : ℝ) (hε : 0 < ε) :
    ∃ N, ∀ n, N ≤ n → |smoothIter α c x0 n - c| < ε := by
  set d := |x0 - c| with hd
  have hd0 : 0 ≤ d := abs_nonneg _
  obtain ⟨N, hN⟩ := exists_pow_lt_of_lt_one (show (0 : ℝ) < ε / (d + 1) by positivity) hα1
  refine ⟨N, fun n hn => ?_⟩
  rw [smoothIter_dist α c x0 hα0.le]
  have h1 : α ^ n ≤ α ^ N := pow_le_pow_of_le_one hα0.le hα1.le hn
  have h2 : α ^ N * (d + 1) < ε := by
    have := (lt_div_iff (show (0 : ℝ) < d + 1 by linarith)).mp hN
    linarith
  have h3 : α ^ n * d ≤ α ^ N * d :=
    mul_le_mul_of_nonneg_right h1 hd0
  nlinarith [pow_nonneg hα0.le N]

/-- C7: the temporal smoothing update is `state = α·state_prev + (1-α)·new`
elementwise; at `α = 0` the state equals the new input, at `α = 1` it never
changes, and for `α ∈ (0,1)` under a constant input every entry moves
monotonically toward that constant (the gap shrinking by the factor `α`
each frame) and converges to it. -/
theorem c7_theorem (α : ℝ) (prev data : List ℝ) (hlen : prev.length = data.length)
    (c s0 : List ℝ) (hlen2 : s0.length = c.length) (k : ℕ) (hk : k < c.length)
    (hα0 : 0 < α) (hα1 : α < 1) (ε : ℝ) (hε : 0 < ε) :
    smoothUpdate 0 prev data = data ∧
    smoothUpdate 1 prev data = prev ∧
    (∀ n, |(smoothIterVec α c s0 (n + 1)).getD k 0 - c.getD k 0| =
      α * |(smoothIterVec α c s0 n).getD k 0 - c.getD k 0|) ∧
    (s0.getD k 0 ≤ c.getD k 0 → ∀ n,
      (smoothIterVec α c s0 n).getD k 0 ≤ (smoothIterVec α c s0 (n + 1)).getD k 0 ∧
      (smoothIterVec α c s0 n).getD k 0 ≤ c.getD k 0) ∧
    (c.getD k 0 ≤ s0.getD k 0 → ∀ n,
      (smoothIterVec α c s0 (n + 1)).getD k 0 ≤ (smoothIterVec α c s0 n).getD k 0 ∧
      c.getD k 0 ≤ (smoothIterVec α c s0 n).getD k 0) ∧
    (∃ N, ∀ n, N ≤ n → |(smoothIterVec α c s0 n).getD k 0 - c.getD k 0| < ε) := by
  have hgetD := smoothIterVec_getD α c s0 hlen2 k hk
  refine ⟨smoothUpdate_zero prev data hlen, smoothUpdate_one prev data hlen, ?_, ?_, ?_, ?_⟩
  · intro n
    rw [hgetD n, hgetD (n + 1)]
    exact smoothIter_abs α (c.getD k 0) (s0.getD k 0) hα0.le n
  · intro hx n
    rw [hgetD n, hgetD (n + 1)]
    exact ⟨smoothIter_mono_of_le α _ _ hα0.le hα1.le hx n,
      smoothIter_le_of_le α _ _ hα0.le hα1.le hx n⟩
  · intro hx n
    rw [hgetD n, hgetD (n + 1)]
    exact ⟨smoothIter_antitone_of_ge α _ _ hα0.le hα1.le hx n,
      smoothIter_ge_of_ge α _ _ hα0.le hα1.le hx n⟩
  · obtain ⟨N, hN⟩ := smoothIter_conv α (c.getD k 0) (s0.getD k 0) hα0 hα1 ε hε
    exact ⟨N, fun n hn => by rw [hgetD n]; exact hN n hn⟩

/-- Witness for C7 at `α = 1/2` on a one-entry state. -/
theorem c7_witness :
    (0 : ℝ) < 1 / 2 ∧
    (smoothUpdate 0 [] [] = [] ∧
     smoothUpdate 1 [] [] = [] ∧
     (∀ n, |(smoothIterVec (1 / 2) [(1 : ℝ)] [0] (n + 1)).getD 0 0 - [(1 : ℝ)].getD 0 0| =
       1 / 2 * |(smoothIterVec (1 / 2) [(1 : ℝ)] [0] n).getD 0 0 - [(1 : ℝ)].getD 0 0|) ∧
     (([(0 : ℝ)]).getD 0 0 ≤ [(1 : ℝ)].getD 0 0 → ∀ n,
       (smoothIterVec (1 / 2) [(1 : ℝ)] [0] n).getD 0 0 ≤
         (smoothIterVec (1 / 2) [(1 : ℝ)] [0] (n + 1)).getD 0 0 ∧
       (smoothIterVec (1 / 2) [(1 : ℝ)] [0] n).getD 0 0 ≤ [(1 : ℝ)].getD 0 0) ∧
     (([(1 : ℝ)]).getD 0 0 ≤ [(0 : ℝ)].getD 0 0 → ∀ n,
       (smoothIterVec (1 / 2) [(1 : ℝ)] [0] (n + 1)).getD 0 0 ≤
         (smoothIterVec (1 / 2) [(1 : ℝ)] [0] n).getD 0 0 ∧
       ([(1 : ℝ)]).getD 0 0 ≤ (smoothIterVec (1 / 2) [(1 : ℝ)] [0] n).getD 0 0) ∧
     (∃ N, ∀ n, N ≤ n →
       |(smoothIterVec (1 / 2) [(1 : ℝ)] [0] n).getD 0 0 - [(1 : ℝ)].getD 0 0| < 1)) :=
  ⟨one_half_pos,
    c7_theorem (1 / 2) [] [] rfl [1] [0] rfl 0 (by simp) one_half_pos one_half_lt_one 1
      zero_lt_one⟩

/-! ### List and spectrum helper lemmas -/

theorem getD_eq_zero_of_forall {l : List ℝ} (h : ∀ x ∈ l, x = 0) :
    ∀ j, l.getD j 0 = 0 := by
  induction l with
  | nil => intro j; simp
  | cons a t ih =>
    intro j
    cases j with
    | zero => exact h a (by simp)
    | succ j =>
      simp only [List.getD_cons_succ]
      exact ih (fun x hx => h x (by simp [hx])) j

theorem getD_mem_or (l : List ℝ) : ∀ j, l.getD j 0 ∈ l ∨ l.getD j 0 = 0 := by
  induction l with
  | nil => intro j; right; simp
  | cons a t ih =>
    intro j
    cases j with
    | zero => left; simp
    | succ j =>
      simp only [List.getD_cons_succ]
      rcases ih j with h | h
      · exact Or.inl (List.mem_cons_of_mem a h)
      · exact Or.inr h

theorem getD_nonneg_of_forall {l : List ℝ} (h : ∀ x ∈ l, 0 ≤ x) (j : ℕ) :
    0 ≤ l.getD j 0 := by
  rcases getD_mem_or l j with hm | hz
  · exact h _ hm
  · rw [hz]

theorem mem_zipWith {f : ℝ → ℝ → ℝ} :
    ∀ {a b : List ℝ} {x : ℝ}, x ∈ List.zipWith f a b → ∃ p ∈ a, ∃ q ∈ b, x = f p q := by
  intro a
  induction a with
  | nil => intro b x hx; simp at hx
  | cons p ps ih =>
    intro b x hx
    cases b with
    | nil => simp at hx
    | cons q qs =>
      rcases List.mem_cons.mp hx with h | h
      · exact ⟨p, by simp, q, by simp, h⟩
      · obtain ⟨p', hp', q', hq', rfl⟩ := ih h
        exact ⟨p', by simp [hp'], q', by simp [hq'], rfl⟩

theorem eq_replicate_zero {l : List ℝ} {n : ℕ} (hlen : l.length = n)
    (h : ∀ x ∈ l, x = 0) : l = List.replicate n 0 :=
  List.eq_replicate.mpr ⟨hlen, h⟩

theorem le_foldl_max (as : List ℝ) : ∀ a : ℝ, a ≤ as.foldl max a := by
  induction as with
  | nil => intro a; exact le_refl a
  | cons x xs ih =>
    intro a
    exact le_trans (le_max_left a x) (ih (max a x))

theorem mem_le_foldl_max (as : List ℝ) : ∀ (a x : ℝ), x ∈ as → x ≤ as.foldl max a := by
  induction as with
  | nil => intro a x hx; simp at hx
  | cons y ys ih =>
    intro a x hx
    rcases List.mem_cons.mp hx with rfl | h
    · exact le_trans (le_max_right a x) (le_foldl_max ys (max a x))
    · exact ih (max a y) x h

theorem foldl_max_mem (as : List ℝ) : ∀ a : ℝ, as.foldl max a = a ∨ as.foldl max a ∈ as := by
  induction as with
  | nil => intro a; left; rfl
  | cons x xs ih =>
    intro a
    rw [List.foldl_cons]
    rcases ih (max a x) with h | h
    · rcases max_choice a x with hm | hm
      · left; rw [h, hm]
      · right; rw [h, hm]; simp
    · right; simp [h]

theorem npMax_spec {l : List ℝ} (h : l ≠ []) :
    ∃ m, npMax l = some m ∧ m ∈ l ∧ ∀ x ∈ l, x ≤ m := by
  cases l with
  | nil => exact absurd rfl h
  | cons a as =>
    refine ⟨as.foldl max a, rfl, ?_, ?_⟩
    · rcases foldl_max_mem as a with hm | hm
      · rw [hm]; simp
      · simp [hm]
    · intro x hx
      rcases List.mem_cons.mp hx with rfl | hmem
      · exact le_foldl_max as x
      · exact mem_le_foldl_max as a x hmem

theorem npMax_allZero {l : List ℝ} (hne : l ≠ []) (h : ∀ x ∈ l, x = 0) :
    npMax l = some 0 := by
  obtain ⟨m, hm, hmem, -⟩ := npMax_spec hne
  rw [hm, h m hmem]

theorem npMax_ne_none {l : List ℝ} (hne : l ≠ []) : npMax l ≠ none := by
  obtain ⟨m, hm, -, -⟩ := npMax_spec hne
  rw [hm]
  exact Option.noConfusion

theorem normalizeMax_nil : normalizeMax [] = none := rfl

theorem normalizeMax_allZero {l : List ℝ} (hne : l ≠ []) (h : ∀ x ∈ l, x = 0) :
    normalizeMax l = some l := by
  unfold normalizeMax
  rw [npMax_allZero hne h]
  simp

theorem div_entries_bounds {l : List ℝ} {m : ℝ} (hl : ∀ x ∈ l, 0 ≤ x)
    (hub : ∀ x ∈ l, x ≤ m) : ∀ x ∈ l.map (· / m), 0 ≤ x ∧ x ≤ 1 := by
  intro x hx
  obtain ⟨e, he, rfl⟩ := List.mem_map.mp hx
  by_cases hm : m = 0
  · rw [hm, div_zero]
    exact ⟨le_refl 0, zero_le_one⟩
  · have hm0 : 0 < m := lt_of_le_of_ne (le_trans (hl e he) (hub e he)) (Ne.symm hm)
    exact ⟨div_nonneg (hl e he) hm0.le, (div_le_one hm0).mpr (hub e he)⟩

theorem normalizeMax_bounds {l l' : List ℝ} (hl : ∀ x ∈ l, 0 ≤ x)
    (h : normalizeMax l = some l') :
    (∀ x ∈ l', 0 ≤ x ∧ x ≤ 1) ∧ l'.length = l.length := by
  unfold normalizeMax at h
  cases hmax : npMax l with
  | none => rw [hmax] at h; exact Option.noConfusion h
  | some m =>
    rw [hmax] at h
    have hne : l ≠ [] := by
      intro hnil
      rw [hnil] at hmax
      exact Option.noConfusion hmax
    obtain ⟨m', hm', hmem, hub⟩ := npMax_spec hne
    have hmm : m' = m := Option.some.inj (hm'.symm.trans hmax)
    subst hmm
    have hl' : l' = if m' ≠ 0 then l.map (· / m') else l := (Option.some.inj h).symm
    by_cases hm0 : m' = 0
    · rw [hl', if_neg (by simp [hm0])]
      refine ⟨fun x hx => ⟨hl x hx, ?_⟩, rfl⟩
      have := hub x hx
      rw [hm0] at this
      linarith
    · rw [hl', if_pos hm0]
      exact ⟨div_entries_bounds hl hub, by simp⟩

/-! ### DFT / spectrum zero and bound lemmas -/

theorem dftMag_zero {x : List ℝ} (h : ∀ j, x.getD j 0 = 0) (n k : ℕ) :
    dftMag x n k = 0 := by
  unfold dftMag
  rw [Finset.sum_eq_zero]
  · simp
  · intro j _
    rw [h j]
    simp

theorem rfftAbs_zero {x : List ℝ} {n : ℕ} (h : ∀ x' ∈ x, x' = 0) :
    ∀ b ∈ rfftAbs x n, b = 0 := by
  intro b hb
  obtain ⟨k, -, rfl⟩ := List.mem_map.mp hb
  exact dftMag_zero (getD_eq_zero_of_forall h) n k

theorem rfftAbs_nonneg {x : List ℝ} {n : ℕ} : ∀ b ∈ rfftAbs x n, 0 ≤ b := by
  intro b hb
  obtain ⟨k, -, rfl⟩ := List.mem_map.mp hb
  exact Complex.abs.nonneg _

theorem rfftAbs_length (x : List ℝ) (n : ℕ) : (rfftAbs x n).length = n / 2 + 1 := by
  simp [rfftAbs]

theorem log1p_zero : log1p 0 = 0 := by
  simp [log1p]

theorem log1p_nonneg {x : ℝ} (h : 0 ≤ x) : 0 ≤ log1p x :=
  Real.log_nonneg (by linarith)

theorem map_log1p_zero {l : List ℝ} (h : ∀ x ∈ l, x = 0) :
    ∀ x ∈ l.map log1p, x = 0 := by
  intro x hx
  obtain ⟨e, he, rfl⟩ := List.mem_map.mp hx
  rw [h e he]
  exact log1p_zero

theorem map_log1p_nonneg {l : List ℝ} (h : ∀ x ∈ l, 0 ≤ x) :
    ∀ x ∈ l.map log1p, 0 ≤ x := by
  intro x hx
  obtain ⟨e, he, rfl⟩ := List.mem_map.mp hx
  exact log1p_nonneg (h e he)

theorem selectedSpectrum_length (sr : ℚ) (n : ℕ) (minf maxf : ℚ) (frame : List ℝ) :
    (selectedSpectrum sr n minf maxf frame).length = (rfftSelect sr n minf maxf).length := by
  simp [selectedSpectrum]

theorem selectedSpectrum_nonneg (sr : ℚ) (n : ℕ) (minf maxf : ℚ) (frame : List ℝ) :
    ∀ x ∈ selectedSpectrum sr n minf maxf frame, 0 ≤ x := by
  intro x hx
  unfold selectedSpectrum at hx
  obtain ⟨k, -, rfl⟩ := List.mem_map.mp hx
  exact getD_nonneg_of_forall rfftAbs_nonneg k

theorem selectedSpectrum_zero {frame : List ℝ} (h : ∀ x ∈ frame, x = 0)
    (sr : ℚ) (n : ℕ) (minf maxf : ℚ) :
    ∀ x ∈ selectedSpectrum sr n minf maxf frame, x = 0 := by
  intro x hx
  unfold selectedSpectrum at hx
  obtain ⟨k, -, rfl⟩ := List.mem_map.mp hx
  have hpad : ∀ y ∈ (if frame.length < n then
      frame ++ List.replicate (n - frame.length) (0 : ℝ) else frame), y = 0 := by
    intro y hy
    split at hy
    · rcases List.mem_append.mp hy with hm | hm
      · exact h y hm
      · exact List.eq_of_mem_replicate hm
    · exact h y hy
  have hwin : ∀ y ∈ List.zipWith (· * ·)
      (if frame.length < n then frame ++ List.replicate (n - frame.length) (0 : ℝ) else frame)
      (hanning (if frame.length < n then
        frame ++ List.replicate (n - frame.length) (0 : ℝ) else frame).length), y = 0 := by
    intro y hy
    obtain ⟨p, hp, q, -, rfl⟩ := mem_zipWith hy
    rw [hpad p hp, zero_mul]
  rcases getD_mem_or (rfftAbs _ n) k with hm | hz
  · exact rfftAbs_zero hwin _ hm
  · exact hz

theorem selectedSpectrum_of_selNil {sr : ℚ} {n : ℕ} {minf maxf : ℚ}
    (hsel : rfftSelect sr n minf maxf = []) (frame : List ℝ) :
    selectedSpectrum sr n minf maxf frame = [] := by
  unfold selectedSpectrum
  rw [hsel]
  rfl

/-! ### Interpolation lemmas -/

theorem npInterpIdx_zero {fp : List ℝ} (h : ∀ x ∈ fp, x = 0) (t : ℚ) :
    npInterpIdx fp t = 0 := by
  have g := getD_eq_zero_of_forall h
  unfold npInterpIdx
  split
  · exact g 0
  · split
    · exact g _
    · show fp.getD (⌊t⌋.toNat) 0 +
          ((t : ℝ) - ((⌊t⌋.toNat : ℕ) : ℝ)) *
            (fp.getD ((⌊t⌋.toNat) + 1) 0 - fp.getD (⌊t⌋.toNat) 0) = 0
      rw [g, g]
      ring

theorem npInterpIdx_bounds {fp : List ℝ} (h : ∀ x ∈ fp, 0 ≤ x ∧ x ≤ 1) (t : ℚ) :
    0 ≤ npInterpIdx fp t ∧ npInterpIdx fp t ≤ 1 := by
  have hg : ∀ j, 0 ≤ fp.getD j 0 ∧ fp.getD j 0 ≤ 1 := by
    intro j
    rcases getD_mem_or fp j with hm | hz
    · exact h _ hm
    · rw [hz]; exact ⟨le_refl 0, zero_le_one⟩
  unfold npInterpIdx
  split
  · exact hg 0
  next h1 =>
    split
    · exact hg _
    next h2 =>
      push_neg at h1 h2
      have hfl : (0 : ℤ) ≤ ⌊t⌋ := Int.floor_nonneg.mpr h1.le
      have hic : (((⌊t⌋).toNat : ℤ) : ℚ) = (⌊t⌋ : ℚ) := by
        rw [Int.toNat_of_nonneg hfl]
      have hwq0 : ((⌊t⌋).toNat : ℚ) ≤ t := by
        rw [show ((⌊t⌋).toNat : ℚ) = ((((⌊t⌋).toNat : ℤ)) : ℚ) by norm_cast, hic]
        exact Int.floor_le t
      have hwq1 : t - ((⌊t⌋).toNat : ℚ) < 1 := by
        have := Int.lt_floor_add_one t
        rw [show ((⌊t⌋).toNat : ℚ) = ((((⌊t⌋).toNat : ℤ)) : ℚ) by norm_cast, hic]
        linarith
      have hw0 : (0 : ℝ) ≤ (t : ℝ) - ((⌊t⌋).toNat : ℝ) := by
        have : (((⌊t⌋).toNat : ℚ) : ℝ) ≤ ((t : ℚ) : ℝ) := by exact_mod_cast hwq0
        push_cast at this ⊢
        linarith
      have hw1 : (t : ℝ) - ((⌊t⌋).toNat : ℝ) ≤ 1 := by
        have : ((t - ((⌊t⌋).toNat : ℚ) : ℚ) : ℝ) < ((1 : ℚ) : ℝ) := by exact_mod_cast hwq1
        push_cast at this ⊢
        linarith
      obtain ⟨ha0, ha1⟩ := hg (⌊t⌋).toNat
      obtain ⟨hb0, hb1⟩ := hg ((⌊t⌋).toNat + 1)
      show 0 ≤ fp.getD (⌊t⌋.toNat) 0 +
          ((t : ℝ) - ((⌊t⌋.toNat : ℕ) : ℝ)) *
            (fp.getD ((⌊t⌋.toNat) + 1) 0 - fp.getD (⌊t⌋.toNat) 0) ∧
        fp.getD (⌊t⌋.toNat) 0 +
          ((t : ℝ) - ((⌊t⌋.toNat : ℕ) : ℝ)) *
            (fp.getD ((⌊t⌋.toNat) + 1) 0 - fp.getD (⌊t⌋.toNat) 0) ≤ 1
      constructor
      · nlinarith
      · nlinarith

theorem interpA_length (fp : List ℝ) (P : ℕ) : (interpA fp P).length = P := by
  unfold interpA
  rw [List.length_map, List.length_range]

theorem interpA_zero {fp : List ℝ} (h : ∀ x ∈ fp, x = 0) (P : ℕ) :
    interpA fp P = List.replicate P 0 := by
  refine eq_replicate_zero (interpA_length fp P) ?_
  intro x hx
  obtain ⟨j, -, rfl⟩ := List.mem_map.mp hx
  exact npInterpIdx_zero h _

theorem interpA_bounds {fp : List ℝ} (h : ∀ x ∈ fp, 0 ≤ x ∧ x ≤ 1) (P : ℕ) :
    ∀ x ∈ interpA fp P, 0 ≤ x ∧ x ≤ 1 := by
  intro x hx
  obtain ⟨j, -, rfl⟩ := List.mem_map.mp hx
  exact npInterpIdx_bounds h _

theorem interpB_length (fp : List ℝ) (P : ℕ) : (interpB fp P).length = P := by
  unfold interpB
  rw [List.length_map, List.length_range]

/-! ### State-update bounds and per-variant data bounds (toward C10) -/

theorem smoothUpdate_bounds {α : ℝ} (hα0 : 0 ≤ α) (hα1 : α ≤ 1) {prev data : List ℝ}
    (hp : ∀ x ∈ prev, 0 ≤ x ∧ x ≤ 1) (hd : ∀ x ∈ data, 0 ≤ x ∧ x ≤ 1) :
    ∀ x ∈ smoothUpdate α prev data, 0 ≤ x ∧ x ≤ 1 := by
  intro x hx
  obtain ⟨p, hpm, q, hqm, rfl⟩ := mem_zipWith hx
  obtain ⟨hp0, hp1⟩ := hp p hpm
  obtain ⟨hq0, hq1⟩ := hd q hqm
  constructor
  · nlinarith
  · nlinarith

theorem stateSmooth_bounds {α : ℝ} (hα0 : 0 ≤ α) (hα1 : α ≤ 1) (cnt : ℕ)
    {prev data : List ℝ} (hp : ∀ x ∈ prev, 0 ≤ x ∧ x ≤ 1)
    (hd : ∀ x ∈ data, 0 ≤ x ∧ x ≤ 1) :
    ∀ x ∈ stateSmooth α cnt prev data, 0 ≤ x ∧ x ≤ 1 := by
  unfold stateSmooth
  refine smoothUpdate_bounds hα0 hα1 ?_ hd
  split
  · intro x hx
    rw [List.eq_of_mem_replicate hx]
    exact ⟨le_refl 0, zero_le_one⟩
  · exact hp

theorem barDataOfFrame_bounds {num_bars : ℕ} {frame data : List ℝ}
    (h : barDataOfFrame num_bars frame = some data) : ∀ x ∈ data, 0 ≤ x ∧ x ≤ 1 := by
  unfold barDataOfFrame at h
  split at h
  · rcases Option.some.inj h with rfl
    intro x hx
    rw [List.eq_of_mem_replicate hx]
    exact ⟨le_refl 0, zero_le_one⟩
  · split at h
    · exact Option.noConfusion h
    · cases hn : normalizeMax ((rfftAbs frame (num_bars * 2)).map log1p) with
      | none => rw [hn] at h; exact Option.noConfusion h
      | some sp =>
        rw [hn] at h
        rcases Option.some.inj h with rfl
        have hb := (normalizeMax_bounds (map_log1p_nonneg rfftAbs_nonneg) hn).1
        intro x hx
        exact hb x ((List.take_sublist num_bars sp).subset hx)

theorem faDataOfFrame_bounds {sr : ℚ} {fft_size : ℕ} {minf maxf : ℚ} {frame data : List ℝ}
    (h : faDataOfFrame sr fft_size minf maxf frame = some data) :
    ∀ x ∈ data, 0 ≤ x ∧ x ≤ 1 := by
  unfold faDataOfFrame at h
  split at h
  · exact Option.noConfusion h
  · exact (normalizeMax_bounds
      (map_log1p_nonneg (selectedSpectrum_nonneg sr fft_size minf maxf frame)) h).1

theorem circDataOfFrame_bounds {sr : ℚ} {fft_size num_points : ℕ} {minf maxf : ℚ}
    {frame data : List ℝ}
    (h : circDataOfFrame sr fft_size num_points minf maxf frame = some data) :
    ∀ x ∈ data, 0 ≤ x ∧ x ≤ 1 := by
  unfold circDataOfFrame at h
  split at h
  · exact Option.noConfusion h
  · cases hn : normalizeMax ((selectedSpectrum sr fft_size minf maxf frame).map log1p) with
    | none => rw [hn] at h; exact Option.noConfusion h
    | some sp =>
      rw [hn] at h
      rcases Option.some.inj h with rfl
      exact interpA_bounds
        ((normalizeMax_bounds
          (map_log1p_nonneg (selectedSpectrum_nonneg sr fft_size minf maxf frame)) hn).1)
        num_points

theorem cdDataOfFrame_bounds {sr : ℚ} {fft_size num_points : ℕ} {minf maxf : ℚ}
    {frame data : List ℝ}
    (h : cdDataOfFrame sr fft_size num_points minf maxf frame = some data) :
    ∀ x ∈ data, 0 ≤ x ∧ x ≤ 1 := by
  unfold cdDataOfFrame at h
  by_cases hfft : fft_size = 0
  · rw [if_pos hfft] at h
    exact Option.noConfusion h
  rw [if_neg hfft] at h
  by_cases hz : (selectedSpectrum sr fft_size minf maxf frame).length = 0 ∨
      ∀ x ∈ selectedSpectrum sr fft_size minf maxf frame, x = 0
  · rw [if_pos hz] at h
    by_cases hnp : num_points = 0
    · rw [if_pos hnp] at h
      exact Option.noConfusion h
    · rw [if_neg hnp] at h
      rcases Option.some.inj h with rfl
      refine interpA_bounds ?_ num_points
      intro x hx
      rw [List.eq_of_mem_replicate hx]
      exact ⟨le_refl 0, zero_le_one⟩
  · rw [if_neg hz] at h
    cases hn : npMax ((selectedSpectrum sr fft_size minf maxf frame).map log1p) with
      | none => rw [hn] at h; exact Option.noConfusion h
      | some m =>
        rw [hn] at h
        rcases Option.some.inj h with rfl
        refine interpA_bounds ?_ num_points
        have hne : (selectedSpectrum sr fft_size minf maxf frame).map log1p ≠ [] := by
          intro hnil
          rw [hnil] at hn
          exact Option.noConfusion hn
        obtain ⟨m', hm', -, hub⟩ := npMax_spec hne
        have hmm : m' = m := Option.some.inj (hm'.symm.trans hn)
        subst hmm
        exact div_entries_bounds
          (map_log1p_nonneg (selectedSpectrum_nonneg sr fft_size minf maxf frame)) hub

/-- C10: for every variant, if the smoothing factor lies in `[0, 1]` and the
persistent state's entries lie in `[0, 1]`, then after any successful call to
`get_audio_data` the new state's entries lie in `[0, 1]`: the state is
(re)initialized to zeros on a length mismatch and each update is a convex
combination of the previous state and a freshly normalized vector with
entries in `[0, 1]`. -/
theorem c10_theorem (audio : List ℝ) (sr fd : ℚ) (i : ℕ)
    (num_bars fft_size num_points : ℕ) (minf maxf : ℚ) (α : ℝ) (prev : List ℝ)
    (hα0 : 0 ≤ α) (hα1 : α ≤ 1) (hprev : ∀ x ∈ prev, 0 ≤ x ∧ x ≤ 1) :
    (∀ st, barGetAudioData audio sr fd i num_bars α prev = some st →
      ∀ x ∈ st, 0 ≤ x ∧ x ≤ 1) ∧
    (∀ st, faGetAudioData audio sr fd i fft_size minf maxf α prev = some st →
      ∀ x ∈ st, 0 ≤ x ∧ x ≤ 1) ∧
    (∀ st, circGetAudioData audio sr fd i fft_size num_points minf maxf α prev = some st →
      ∀ x ∈ st, 0 ≤ x ∧ x ≤ 1) ∧
    (∀ st, cdGetAudioData audio sr fd i fft_size num_points minf maxf α prev = some st →
      ∀ x ∈ st, 0 ≤ x ∧ x ≤ 1) := by
  refine ⟨?_, ?_, ?_, ?_⟩
  · intro st hst
    obtain ⟨data, hdata, rfl⟩ := Option.map_eq_some'.mp hst
    exact stateSmooth_bounds hα0 hα1 num_bars hprev (barDataOfFrame_bounds hdata)
  · intro st hst
    obtain ⟨data, hdata, rfl⟩ := Option.map_eq_some'.mp hst
    exact stateSmooth_bounds hα0 hα1 data.length hprev (faDataOfFrame_bounds hdata)
  · intro st hst
    obtain ⟨data, hdata, rfl⟩ := Option.map_eq_some'.mp hst
    exact stateSmooth_bounds hα0 hα1 num_points hprev (circDataOfFrame_bounds hdata)
  · intro st hst
    obtain ⟨data, hdata, rfl⟩ := Option.map_eq_some'.mp hst
    exact stateSmooth_bounds hα0 hα1 num_points hprev (cdDataOfFrame_bounds hdata)

/-- Witness for C10 at `α = 1`, empty previous state. -/
theorem c10_witness :
    (0 : ℝ) ≤ 1 ∧
    ((∀ st, barGetAudioData [] 8 (1 / 30) 0 4 1 [] = some st →
      ∀ x ∈ st, 0 ≤ x ∧ x ≤ 1) ∧
    (∀ st, faGetAudioData [] 8 (1 / 30) 0 16 20 8000 1 [] = some st →
      ∀ x ∈ st, 0 ≤ x ∧ x ≤ 1) ∧
    (∀ st, circGetAudioData [] 8 (1 / 30) 0 16 6 20 8000 1 [] = some st →
      ∀ x ∈ st, 0 ≤ x ∧ x ≤ 1) ∧
    (∀ st, cdGetAudioData [] 8 (1 / 30) 0 16 6 20 8000 1 [] = some st →
      ∀ x ∈ st, 0 ≤ x ∧ x ≤ 1)) :=
  ⟨zero_le_one,
    c10_theorem [] 8 (1 / 30) 0 4 16 6 20 8000 1 [] zero_le_one (le_refl 1) (by simp)⟩

/-! ### All-zero window lemmas (toward C3) and degenerate-selection lemmas
(toward C1) -/

theorem barDataOfFrame_zeroWin {frame : List ℝ} (h : ∀ x ∈ frame, x = 0)
    {num_bars : ℕ} (hnb : 1 ≤ num_bars) :
    barDataOfFrame num_bars frame = some (List.replicate num_bars 0) := by
  unfold barDataOfFrame
  by_cases hfr : frame.length = 0
  · rw [if_pos hfr]
  rw [if_neg hfr, if_neg (by omega : ¬num_bars = 0)]
  have hzero : ∀ x ∈ (rfftAbs frame (num_bars * 2)).map log1p, x = 0 :=
    map_log1p_zero (rfftAbs_zero h)
  have hlen : ((rfftAbs frame (num_bars * 2)).map log1p).length = num_bars + 1 := by
    rw [List.length_map, rfftAbs_length, Nat.mul_div_cancel num_bars (by norm_num)]
  have hne : (rfftAbs frame (num_bars * 2)).map log1p ≠ [] := by
    intro hnil
    rw [hnil] at hlen
    simp at hlen
  rw [normalizeMax_allZero hne hzero]
  show some (((rfftAbs frame (num_bars * 2)).map log1p).take num_bars) = _
  rw [eq_replicate_zero hlen hzero, List.take_replicate, min_eq_left (by omega)]

theorem faLogSpectrum_zeroWin {frame : List ℝ} (h : ∀ x ∈ frame, x = 0)
    (sr : ℚ) (fft_size : ℕ) (minf maxf : ℚ)
    (hsel : rfftSelect sr fft_size minf maxf ≠ []) :
    npMax ((selectedSpectrum sr fft_size minf maxf frame).map log1p) = some 0 := by
  have hzero := map_log1p_zero (selectedSpectrum_zero h sr fft_size minf maxf)
  have hne : (selectedSpectrum sr fft_size minf maxf frame).map log1p ≠ [] := by
    intro hnil
    have := congrArg List.length hnil
    rw [List.length_map, selectedSpectrum_length] at this
    exact hsel (List.length_eq_zero.mp (by simpa using this))
  exact npMax_allZero hne hzero

theorem faDataOfFrame_zeroWin {frame : List ℝ} (h : ∀ x ∈ frame, x = 0)
    (sr : ℚ) {fft_size : ℕ} (hfft : fft_size ≠ 0) (minf maxf : ℚ)
    (hsel : rfftSelect sr fft_size minf maxf ≠ []) :
    faDataOfFrame sr fft_size minf maxf frame =
      some (List.replicate (rfftSelect sr fft_size minf maxf).length 0) := by
  have hzero := map_log1p_zero (selectedSpectrum_zero h sr fft_size minf maxf)
  have hne : (selectedSpectrum sr fft_size minf maxf frame).map log1p ≠ [] := by
    intro hnil
    have := congrArg List.length hnil
    rw [List.length_map, selectedSpectrum_length] at this
    exact hsel (List.length_eq_zero.mp (by simpa using this))
  unfold faDataOfFrame
  rw [if_neg hfft, normalizeMax_allZero hne hzero, eq_replicate_zero ?_ hzero]
  rw [List.length_map, selectedSpectrum_length]

theorem circDataOfFrame_zeroWin {frame : List ℝ} (h : ∀ x ∈ frame, x = 0)
    (sr : ℚ) {fft_size : ℕ} (hfft : fft_size ≠ 0) (num_points : ℕ) (minf maxf : ℚ)
    (hsel : rfftSelect sr fft_size minf maxf ≠ []) :
    circDataOfFrame sr fft_size num_points minf maxf frame =
      some (List.replicate num_points 0) := by
  have hzero := map_log1p_zero (selectedSpectrum_zero h sr fft_size minf maxf)
  have hne : (selectedSpectrum sr fft_size minf maxf frame).map log1p ≠ [] := by
    intro hnil
    have := congrArg List.length hnil
    rw [List.length_map, selectedSpectrum_length] at this
    exact hsel (List.length_eq_zero.mp (by simpa using this))
  unfold circDataOfFrame
  rw [if_neg hfft, normalizeMax_allZero hne hzero]
  show some (interpA ((selectedSpectrum sr fft_size minf maxf frame).map log1p) num_points) = _
  rw [interpA_zero hzero]

theorem cdDataOfFrame_zeroWin {frame : List ℝ} (h : ∀ x ∈ frame, x = 0)
    (sr : ℚ) {fft_size : ℕ} (hfft : fft_size ≠ 0) {num_points : ℕ}
    (hnp : num_points ≠ 0) (minf maxf : ℚ) :
    cdDataOfFrame sr fft_size num_points minf maxf frame =
      some (List.replicate num_points 0) := by
  unfold cdDataOfFrame
  rw [if_neg hfft, if_pos (Or.inr (selectedSpectrum_zero h sr fft_size minf maxf)),
    if_neg hnp, interpA_zero (fun x hx => List.eq_of_mem_replicate hx)]

/-- C3: for every all-zero audio window (including the empty window), each
variant's feature extraction yields an all-zero vector of its target length
and never divides: the log-compressed spectrum has maximum exactly zero, so
the division by the maximum is skipped. -/
theorem c3_theorem (frame : List ℝ) (hframe : ∀ x ∈ frame, x = 0)
    (num_bars fft_size num_points : ℕ) (sr minf maxf : ℚ)
    (hnb : 1 ≤ num_bars) (hfft : 1 ≤ fft_size) (hnp : 1 ≤ num_points)
    (hsel : rfftSelect sr fft_size minf maxf ≠ []) :
    barDataOfFrame num_bars frame = some (List.replicate num_bars 0) ∧
    npMax ((selectedSpectrum sr fft_size minf maxf frame).map log1p) = some 0 ∧
    faDataOfFrame sr fft_size minf maxf frame =
      some (List.replicate (rfftSelect sr fft_size minf maxf).length 0) ∧
    circDataOfFrame sr fft_size num_points minf maxf frame =
      some (List.replicate num_points 0) ∧
    cdDataOfFrame sr fft_size num_points minf maxf frame =
      some (List.replicate num_points 0) :=
  ⟨barDataOfFrame_zeroWin hframe hnb,
   faLogSpectrum_zeroWin hframe sr fft_size minf maxf hsel,
   faDataOfFrame_zeroWin hframe sr (by omega) minf maxf hsel,
   circDataOfFrame_zeroWin hframe sr (by omega) num_points minf maxf hsel,
   cdDataOfFrame_zeroWin hframe sr (by omega) (by omega) minf maxf⟩

/-- Concrete evaluation: at `sr = 8`, `fft_size = 4` the bin frequencies are
`{0, 2, 4}`, all inside `[0, 10]`. -/
theorem rfftSelect_nonempty_eval : rfftSelect 8 4 0 10 ≠ [] := by
  have hmem : (0 : ℕ) ∈ rfftSelect 8 4 0 10 := by
    unfold rfftSelect
    rw [List.mem_filter]
    refine ⟨by norm_num, ?_⟩
    rw [decide_eq_true_eq]
    norm_num
  exact List.ne_nil_of_mem hmem

/-- Witness for C3: the empty window with `num_bars = 1`, `fft_size = 4`,
`num_points = 3`, `sr = 8`, frequency range `[0, 10]`. -/
theorem c3_witness :
    (∀ x ∈ ([] : List ℝ), x = 0) ∧
    (barDataOfFrame 1 [] = some (List.replicate 1 0) ∧
     npMax ((selectedSpectrum 8 4 0 10 []).map log1p) = some 0 ∧
     faDataOfFrame 8 4 0 10 [] = some (List.replicate (rfftSelect 8 4 0 10).length 0) ∧
     circDataOfFrame 8 4 3 0 10 [] = some (List.replicate 3 0) ∧
     cdDataOfFrame 8 4 3 0 10 [] = some (List.replicate 3 0)) :=
  ⟨by simp,
   c3_theorem [] (by simp) 1 4 3 8 0 10 (le_refl 1) (by norm_num) (by norm_num)
     rfftSelect_nonempty_eval⟩

theorem faDataOfFrame_selNil {sr : ℚ} {fft_size : ℕ} {minf maxf : ℚ}
    (hsel : rfftSelect sr fft_size minf maxf = []) (frame : List ℝ) :
    faDataOfFrame sr fft_size minf maxf frame = none := by
  unfold faDataOfFrame
  by_cases hfft : fft_size = 0
  · rw [if_pos hfft]
  · rw [if_neg hfft, selectedSpectrum_of_selNil hsel]
    rfl

theorem circDataOfFrame_selNil {sr : ℚ} {fft_size : ℕ} {minf maxf : ℚ}
    (hsel : rfftSelect sr fft_size minf maxf = []) (num_points : ℕ) (frame : List ℝ) :
    circDataOfFrame sr fft_size num_points minf maxf frame = none := by
  unfold circDataOfFrame
  by_cases hfft : fft_size = 0
  · rw [if_pos hfft]
  · rw [if_neg hfft, selectedSpectrum_of_selNil hsel]
    rfl

theorem cdDataOfFrame_selNil {sr : ℚ} {fft_size : ℕ} {minf maxf : ℚ}
    (hsel : rfftSelect sr fft_size minf maxf = []) {num_points : ℕ}
    (hnp : num_points ≠ 0) (hfft : fft_size ≠ 0) (frame : List ℝ) :
    cdDataOfFrame sr fft_size num_points minf maxf frame =
      some (List.replicate num_points 0) := by
  unfold cdDataOfFrame
  rw [if_neg hfft,
    if_pos (Or.inl (by rw [selectedSpectrum_of_selNil hsel]; rfl)),
    if_neg hnp, interpA_zero (fun x hx => List.eq_of_mem_replicate hx)]

/-- C1 (amended): when the configured frequency range selects no FFT bins,
only the CircleDeform variant substitutes an all-zero spectrum of the target
length (without raising and without dividing); the FreqAmplitude and
Circular variants instead raise at `np.max` over the empty selection
(modelled as `none`). -/
theorem c1_theorem (frame audio : List ℝ) (sr fd minf maxf : ℚ)
    (fft_size num_points i : ℕ) (α : ℝ) (prev : List ℝ)
    (hsel : rfftSelect sr fft_size minf maxf = [])
    (hfft : 1 ≤ fft_size) (hnp : 1 ≤ num_points) :
    cdDataOfFrame sr fft_size num_points minf maxf frame =
      some (List.replicate num_points 0) ∧
    faDataOfFrame sr fft_size minf maxf frame = none ∧
    circDataOfFrame sr fft_size num_points minf maxf frame = none ∧
    faGetAudioData audio sr fd i fft_size minf maxf α prev = none ∧
    circGetAudioData audio sr fd i fft_size num_points minf maxf α prev = none ∧
    cdGetAudioData audio sr fd i fft_size num_points minf maxf α prev =
      some (stateSmooth α num_points prev (List.replicate num_points 0)) := by
  refine ⟨cdDataOfFrame_selNil hsel (by omega) (by omega) frame,
    faDataOfFrame_selNil hsel frame, circDataOfFrame_selNil hsel num_points frame,
    ?_, ?_, ?_⟩
  · unfold faGetAudioData
    rw [faDataOfFrame_selNil hsel]
    rfl
  · unfold circGetAudioData
    rw [circDataOfFrame_selNil hsel]
    rfl
  · unfold cdGetAudioData
    rw [cdDataOfFrame_selNil hsel (by omega) (by omega)]
    rfl

/-- Concrete evaluation: at `sr = 8`, `fft_size = 4` the bin frequencies are
`{0, 2, 4}`, none inside the inverted range `[3, 1]`. -/
theorem rfftSelect_empty_eval : rfftSelect 8 4 3 1 = [] := by
  unfold rfftSelect
  rw [List.filter_eq_nil]
  intro k hk
  rw [List.mem_range] at hk
  rw [decide_eq_true_eq]
  intro hcon
  interval_cases k <;> norm_num at hcon

/-- Witness for C1 (amended) at the degenerate range `[3, 1]`. -/
theorem c1_witness :
    rfftSelect 8 4 3 1 = [] ∧
    (cdDataOfFrame 8 4 3 3 1 [] = some (List.replicate 3 0) ∧
     faDataOfFrame 8 4 3 1 [] = none ∧
     circDataOfFrame 8 4 3 3 1 [] = none ∧
     faGetAudioData [] 8 (1 / 30) 0 4 3 1 (1 / 2) [] = none ∧
     circGetAudioData [] 8 (1 / 30) 0 4 3 3 1 (1 / 2) [] = none ∧
     cdGetAudioData [] 8 (1 / 30) 0 4 3 3 1 (1 / 2) [] =
       some (stateSmooth (1 / 2) 3 [] (List.replicate 3 0))) :=
  ⟨rfftSelect_empty_eval,
   c1_theorem [] [] 8 (1 / 30) 3 1 4 3 0 (1 / 2) [] rfftSelect_empty_eval
     (by norm_num) (by norm_num)⟩

/-- Counterexample to C1 as stated: with the degenerate range `[3, 1]` the
FreqAmplitude variant's `get_audio_data` raises (`np.max` of an empty
selection, modelled as `none`) instead of treating the result as an
all-zero spectrum. -/
theorem c1_counterexample :
    faGetAudioData [] 8 (1 / 30) 0 4 3 1 (1 / 2) [] = none := by
  unfold faGetAudioData
  rw [faDataOfFrame_selNil rfftSelect_empty_eval]
  rfl

/-! ### Draw-time state resolution lemmas and C2 -/

theorem circAngles_length (num_points : ℕ) (rot : ℝ) :
    (circAngles num_points rot).length = num_points := by
  unfold circAngles
  rw [List.length_map, List.length_range]

theorem drawResolveSpectrum_interp {spectrum : List ℝ} {num_points : ℕ}
    (hne : spectrum ≠ []) (hlen : spectrum.length ≠ num_points) :
    drawResolveSpectrum spectrum num_points = some (interpB spectrum num_points) := by
  unfold drawResolveSpectrum
  rw [if_pos hlen, if_neg (fun h => hne (List.length_eq_zero.mp h))]

theorem drawResolveSpectrum_length {spectrum : List ℝ} {num_points : ℕ} {sp : List ℝ}
    (h : drawResolveSpectrum spectrum num_points = some sp) : sp.length = num_points := by
  unfold drawResolveSpectrum at h
  by_cases hlen : spectrum.length ≠ num_points
  · rw [if_pos hlen] at h
    by_cases h0 : spectrum.length = 0
    · rw [if_pos h0] at h
      exact Option.noConfusion h
    · rw [if_neg h0] at h
      rcases Option.some.inj h with rfl
      exact interpB_length spectrum num_points
  · rw [if_neg hlen] at h
    rcases Option.some.inj h with rfl
    exact not_ne_iff.mp hlen

theorem circDrawLines_length {spectrum : List ℝ} {num_points : ℕ} {radius rot : ℝ}
    {W H : ℕ} {segs : List ((ℤ × ℤ) × (ℤ × ℤ))}
    (h : circDrawLines spectrum num_points radius rot W H = some segs) :
    segs.length = num_points := by
  unfold circDrawLines at h
  cases hres : drawResolveSpectrum spectrum num_points with
  | none => rw [hres] at h; exact Option.noConfusion h
  | some sp =>
    rw [hres] at h
    rcases Option.some.inj h with rfl
    rw [List.length_map, List.length_zip, circAngles_length,
      drawResolveSpectrum_length hres]
    exact min_self num_points

theorem cdDrawPoints_length {spectrum : List ℝ} {num_points : ℕ}
    {base_radius amplitude_scale rot : ℝ} {W H : ℕ} {pts : List (ℤ × ℤ)}
    (h : cdDrawPoints spectrum num_points base_radius amplitude_scale rot W H = some pts) :
    pts.length = num_points := by
  unfold cdDrawPoints at h
  cases hres : drawResolveSpectrum spectrum num_points with
  | none => rw [hres] at h; exact Option.noConfusion h
  | some sp =>
    rw [hres] at h
    rcases Option.some.inj h with rfl
    rw [List.length_map, List.length_zip, circAngles_length,
      drawResolveSpectrum_length hres]
    exact min_self num_points

theorem barDrawRects_length {bars : List ℝ}
    {separation max_height min_height position_y : ℝ} {num_bars : ℕ}
    {reflect : Bool} {W H : ℕ} {rects : List (ℤ × ℤ × ℤ × ℤ)}
    (h : barDrawRects bars separation max_height min_height position_y num_bars
      reflect W H = some rects) : rects.length = bars.length := by
  unfold barDrawRects at h
  by_cases hnb : num_bars = 0
  · rw [if_pos hnb] at h
    exact Option.noConfusion h
  · rw [if_neg hnb] at h
    rcases Option.some.inj h with rfl
    rw [List.length_map, List.length_range]

/-- C2 (amended): in the two circular variants' `draw` the persistent state
is resampled via linear interpolation to `num_points` entries whenever its
length differs, so the state length used for drawing (one line segment or
polyline point per entry) equals `num_points`; the Bar variant's `draw`
performs no such resampling and iterates the persistent state at its
existing length (one rectangle per entry, even when that length differs from
the configured `num_bars`), and the FreqAmplitude variant's `draw` likewise
uses the state at whatever length it has. -/
theorem c2_theorem (spectrum bars : List ℝ) (num_points num_bars : ℕ)
    (radius rot base_radius amplitude_scale separation max_height min_height
      position_y : ℝ) (reflect : Bool) (W H : ℕ)
    (hne : spectrum ≠ []) :
    (spectrum.length ≠ num_points →
      drawResolveSpectrum spectrum num_points = some (interpB spectrum num_points)) ∧
    (∀ sp, drawResolveSpectrum spectrum num_points = some sp →
      sp.length = num_points) ∧
    (∀ segs, circDrawLines spectrum num_points radius rot W H = some segs →
      segs.length = num_points) ∧
    (∀ pts, cdDrawPoints spectrum num_points base_radius amplitude_scale rot W H =
        some pts → pts.length = num_points) ∧
    (∀ rects, barDrawRects bars separation max_height min_height position_y
        num_bars reflect W H = some rects → rects.length = bars.length) :=
  ⟨fun hlen => drawResolveSpectrum_interp hne hlen,
   fun _ h => drawResolveSpectrum_length h,
   fun _ h => circDrawLines_length h,
   fun _ h => cdDrawPoints_length h,
   fun _ h => barDrawRects_length h⟩

/-- Witness for C2 (amended) on a one-entry state and `num_points = 2`. -/
theorem c2_witness :
    ([(0 : ℝ)] ≠ []) ∧
    ((([(0 : ℝ)]).length ≠ 2 →
      drawResolveSpectrum [(0 : ℝ)] 2 = some (interpB [(0 : ℝ)] 2)) ∧
     (∀ sp, drawResolveSpectrum [(0 : ℝ)] 2 = some sp → sp.length = 2) ∧
     (∀ segs, circDrawLines [(0 : ℝ)] 2 0 0 8 6 = some segs → segs.length = 2) ∧
     (∀ pts, cdDrawPoints [(0 : ℝ)] 2 0 0 0 8 6 = some pts → pts.length = 2) ∧
     (∀ rects, barDrawRects [(0 : ℝ), 0, 0] 0 0 0 0 5 false 8 6 = some rects →
       rects.length = ([(0 : ℝ), 0, 0]).length)) :=
  ⟨by simp,
   c2_theorem [(0 : ℝ)] [(0 : ℝ), 0, 0] 2 5 0 0 0 0 0 0 0 0 false 8 6 (by simp)⟩

/-- Counterexample to C2 as stated: `FlexAudioVisualizerBar.draw` with a
three-entry persistent state and `num_bars = 5` draws three rectangles —
the state is not resampled to the configured count before drawing. -/
theorem c2_counterexample :
    (barDrawRects [(0 : ℝ), 0, 0] 0 0 0 0 5 false 8 6).map List.length = some 3 ∧
    (3 : ℕ) ≠ 5 := by
  constructor
  · unfold barDrawRects
    rw [if_neg (by norm_num : ¬(5 = 0))]
    rw [Option.map_some', List.length_map, List.length_range]
    rfl
  · norm_num

end FlexAV
